import Mathlib

/-!
NETCONF client configuration (`examples/client/configuration.c`)

A shallow embedding of `load_config` and `store_config`.

* The XML document is a value tree (`xmlDoc`, `xmlNode`); the linked lists
  `children`/`next` of libxml2 become Lean lists, and the `while` loops over them
  become recursive functions that thread the session state.
* The calls into the SSH layer (`nc_ssh_pref`, `nc_set_keypair_path`) are recorded
  in call order in the session state.
* The outcome of the file-system part of both functions (directory access,
  `access()` on `config.xml`, `xmlReadFile`) is the input `ConfigFile`; whether
  `fopen` and `xmlDocFormatDump` succeed at the end of `store_config` is an input
  of `store_config`.
* What `xmlReadFile` makes of a file written by `xmlDocFormatDump` is not
  computed here: a statement that reads a written document back names the
  `ConfigFile` that is read and states, as a hypothesis, what it keeps of the
  tree that was dumped.
* The entity parsing that `xmlNewChild` applies to a content string with an
  ampersand is an input (`entities`); a content string without one is stored as
  it is.
* The default build is embedded (`DISABLE_LIBSSH` not defined); allocation
  failures (`asprintf`, `strdup`) are not modelled.
-/

namespace NetconfClient

/-! ## libxml2 data model -/

/-- A node of a parsed document: an element with attributes and children, a text
node or a comment. -/
inductive xmlNode where
  | element (name : String) (attrs : List (String × String)) (children : List xmlNode)
  | text (content : String)
  | comment (content : String)
  deriving Repr

/-- A parsed document: the list of its top-level nodes, `doc->children` being the
head of the list. -/
structure xmlDoc where
  children : List xmlNode
  deriving Repr

/-- Field `name` of a node; libxml2 names text nodes `text` and comments `comment`. -/
def xmlNode.name : xmlNode → String
  | .element n _ _ => n
  | .text _ => "text"
  | .comment _ => "comment"

/-- Field `children` of a node (the list reached through `children` and `next`). -/
def xmlNode.children : xmlNode → List xmlNode
  | .element _ _ cs => cs
  | .text _ => []
  | .comment _ => []

/-- Function `xmlStrEqual` on two non-NULL strings. -/
def xmlStrEqual (a b : String) : Bool := decide (a = b)

mutual
/-- Text gathered below a node when the content of an enclosing element is read:
the text nodes in document order, comments being skipped. -/
def xmlNode.textOf : xmlNode → String
  | .element _ _ cs => textOfList cs
  | .text c => c
  | .comment _ => ""
/-- Concatenation of `textOf` over a list of siblings. -/
def textOfList : List xmlNode → String
  | [] => ""
  | n :: ns => n.textOf ++ textOfList ns
end

/-- Function `xmlNodeGetContent`: for an element the concatenated text below it, for a text
node or a comment its own content. -/
def xmlNodeGetContent : xmlNode → String
  | .element _ _ cs => textOfList cs
  | .text c => c
  | .comment c => c

/-- The character `&`, which starts an entity or character reference. -/
def ampersand : Char := Char.ofNat 38

/-- Function `xmlStringGetNodeList`: the node list libxml2 makes of a content
string. The string is scanned for `&`: without one, the whole string becomes one
text node, and no node at all when the string is empty. With one, libxml2 parses
entity and character references (a reference without `;` yields no list, a
predefined entity is replaced by its character, another entity becomes a reference
node); that result is not computed here but taken from `entities`. -/
def xmlStringGetNodeList (entities : String → List xmlNode) (value : String) : List xmlNode :=
  if ampersand ∈ value.toList then entities value
  else if value = "" then []
  else [.text value]

/-- Call `xmlNewDocNode(doc, NULL, name, content)`: a fresh element without attributes;
the children of a non-NULL content are `xmlStringGetNodeList(doc, content)`. -/
def xmlNewDocNode (entities : String → List xmlNode) (name : String)
    (content : Option String) : xmlNode :=
  match content with
  | none => .element name [] []
  | some s => .element name [] (xmlStringGetNodeList entities s)

/-- Function `xmlAddChild`: the node is linked as the last child of the parent element. -/
def xmlAddChild (parent child : xmlNode) : xmlNode :=
  match parent with
  | .element n a cs => .element n a (cs ++ [child])
  | other => other

/-- Call `xmlNewChild(parent, NULL, name, content)`: a fresh element appended as the
last child of `parent`; the updated parent is returned. -/
def xmlNewChild (entities : String → List xmlNode) (parent : xmlNode) (name : String)
    (content : Option String) : xmlNode :=
  xmlAddChild parent (xmlNewDocNode entities name content)

/-! ## libnetconf collaborators -/

/-- Modelled from the spec: `struct nc_cpblts` and its operations are missing from
this source file. The spec calls it a set of capability-identifier strings with
a stable iteration order; it is the list of its strings in iteration order. -/
abbrev nc_cpblts := List String

/-- Modelled from the spec: `nc_cpblts_new(NULL)` is missing; it creates the empty
capability set. -/
def nc_cpblts_new : nc_cpblts := []

/-- Modelled from the spec: `nc_cpblts_add` is missing; the spec says that the
string is added as one capability and that insertion of an existing value is a
no-op. -/
def nc_cpblts_add (c : nc_cpblts) (s : String) : nc_cpblts :=
  if s ∈ c then c else c ++ [s]

/-- Modelled from the spec: `nc_cpblts_iter_start`/`nc_cpblts_iter_next` are
missing; they enumerate the strings of the set in its iteration order. -/
def nc_cpblts_iter (c : nc_cpblts) : List String := c

/-- The authentication methods of `NC_SSH_AUTH_TYPE` used by the client. -/
inductive NC_SSH_AUTH_TYPE where
  | NC_SSH_AUTH_PUBLIC_KEYS
  | NC_SSH_AUTH_INTERACTIVE
  | NC_SSH_AUTH_PASSWORD
  deriving DecidableEq, Repr

/-- What `load_config` produces: the capability set handed back through `cpblts`
and the calls made to `nc_ssh_pref` and `nc_set_keypair_path`, oldest first. -/
structure Session where
  cpblts : nc_cpblts
  ssh_pref : List (NC_SSH_AUTH_TYPE × Int)
  keypair_path : List (String × String)
  deriving Repr

/-- Call `nc_ssh_pref(type, preference)`: the call is recorded. -/
def nc_ssh_pref (s : Session) (t : NC_SSH_AUTH_TYPE) (preference : Int) : Session :=
  { s with ssh_pref := s.ssh_pref ++ [(t, preference)] }

/-- Call `nc_set_keypair_path(private, public)`: the call is recorded. -/
def nc_set_keypair_path (s : Session) (priv pub : String) : Session :=
  { s with keypair_path := s.keypair_path ++ [(priv, pub)] }

/-- Function `isspace` in the C locale. -/
def isspace (c : Char) : Bool :=
  c.toNat = 32 || (9 ≤ c.toNat && c.toNat ≤ 13)

/-- Function `isdigit`. -/
def isdigit (c : Char) : Bool :=
  48 ≤ c.toNat && c.toNat ≤ 57

/-- The digit loop of `strtol` in base 10: the value of the longest prefix of
decimal digits, accumulated onto `acc`. -/
def strtol_digits : List Char → Nat → Nat
  | [], acc => acc
  | c :: cs, acc => if isdigit c then strtol_digits cs (acc * 10 + (c.toNat - 48)) else acc

/-- The sign step of `strtol`: an optional `+` or `-`, then the digits. -/
def strtol_signed : List Char → Int
  | [] => 0
  | c :: cs =>
    if c.toNat = 45 then - (strtol_digits cs 0 : Int)
    else if c.toNat = 43 then (strtol_digits cs 0 : Int)
    else (strtol_digits (c :: cs) 0 : Int)

/-- Call `strtol(s, NULL, 10)` with a 64-bit `long`: leading white space is skipped and
the value is clamped to the range of `long`. -/
def strtol (s : String) : Int :=
  let v := strtol_signed (s.toList.dropWhile isspace)
  if v < -(2 ^ 63 : Int) then -(2 ^ 63 : Int)
  else if (2 ^ 63 : Int) - 1 < v then (2 ^ 63 : Int) - 1
  else v

/-- Call `atoi(s)`, that is `(int) strtol(s, NULL, 10)` with a 32-bit `int`. -/
def atoi (s : String) : Int :=
  (strtol s + 2 ^ 31) % 2 ^ 32 - 2 ^ 31

/-! ## `load_config` -/

/-- What the file-system part of `load_config`/`store_config` finds. -/
inductive ConfigFile where
  -- the configuration directory cannot be used: the function returns early
  | unavailable
  -- access() fails on config.xml
  | absent
  -- xmlReadFile returns NULL
  | unparsable
  -- xmlReadFile returns the document
  | parsed (doc : xmlDoc)
  deriving Repr

/-- Loop `while (config_cap)` (lines 164-169): the content of every child is added
to the capability set. -/
def load_capabilities : List xmlNode → nc_cpblts → nc_cpblts
  | [], c => c
  | config_cap :: next, c =>
    load_capabilities next (nc_cpblts_add c (xmlNodeGetContent config_cap))

/-- Loop `while (tmp_pref)` (lines 178-189). -/
def load_pref : List xmlNode → Session → Session
  | [], s => s
  | tmp_pref :: next, s =>
    let prio := xmlNodeGetContent tmp_pref
    let s1 :=
      if xmlStrEqual tmp_pref.name "publickey" then
        nc_ssh_pref s .NC_SSH_AUTH_PUBLIC_KEYS (atoi prio)
      else if xmlStrEqual tmp_pref.name "interactive" then
        nc_ssh_pref s .NC_SSH_AUTH_INTERACTIVE (atoi prio)
      else if xmlStrEqual tmp_pref.name "password" then
        nc_ssh_pref s .NC_SSH_AUTH_PASSWORD (atoi prio)
      else s
    load_pref next s1

/-- Loop `while (tmp_key)` (lines 192-207). -/
def load_keys : List xmlNode → Session → Session
  | [], s => s
  | tmp_key :: next, s =>
    let s1 :=
      if xmlStrEqual tmp_key.name "key-path" then
        let key_priv := xmlNodeGetContent tmp_key
        let key_pub := key_priv ++ ".pub"
        nc_set_keypair_path s key_priv key_pub
      else s
    load_keys next s1

/-- Loop `while (tmp_auth)` (lines 175-210). -/
def load_authentication : List xmlNode → Session → Session
  | [], s => s
  | tmp_auth :: next, s =>
    let s1 :=
      if xmlStrEqual tmp_auth.name "pref" then load_pref tmp_auth.children s
      else if xmlStrEqual tmp_auth.name "keys" then load_keys tmp_auth.children s
      else s
    load_authentication next s1

/-- Loop `while (tmp_node)` over the children of the root (lines 158-214). -/
def load_root : List xmlNode → Session → Session
  | [], s => s
  | tmp_node :: next, s =>
    let s1 :=
      if xmlStrEqual tmp_node.name "capabilities" then
        { s with cpblts := load_capabilities tmp_node.children nc_cpblts_new }
      else if xmlStrEqual tmp_node.name "authentication" then
        load_authentication tmp_node.children s
      else s
    load_root next s1

/-- Function `load_config`; `defaults` is the result of `nc_session_get_cpblts_default()`. -/
def load_config (defaults : nc_cpblts) (file : ConfigFile) : Session :=
  let s0 : Session := { cpblts := defaults, ssh_pref := [], keypair_path := [] }
  match file with
  | .parsed config_doc =>
    match config_doc.children with
    | root :: _ =>
      if xmlStrEqual root.name "netconf-client" then load_root root.children s0 else s0
    | [] => s0
  | _ => s0

/-! ## `store_config` -/

/-- Lines 301-308: the search for the first child named `capabilities`, which is
then unlinked and freed. -/
def unlink_capabilities : List xmlNode → List xmlNode
  | [] => []
  | config_caps :: next =>
    if xmlStrEqual config_caps.name "capabilities" then next
    else config_caps :: unlink_capabilities next

/-- Loop `while ((cap = nc_cpblts_iter_next(cpblts)) != NULL)` (lines 311-313). -/
def store_capabilities (entities : String → List xmlNode) : List String → xmlNode → xmlNode
  | [], config_caps => config_caps
  | cap :: next, config_caps =>
    store_capabilities entities next (xmlNewChild entities config_caps "capability" (some cap))

/-- Lines 300-314 on the root node. -/
def store_root (entities : String → List xmlNode) (root : xmlNode) (cpblts : nc_cpblts) :
    xmlNode :=
  match root with
  | .element n a cs =>
    xmlAddChild (.element n a (unlink_capabilities cs))
      (store_capabilities entities (nc_cpblts_iter cpblts)
        (xmlNewDocNode entities "capabilities" none))
  | other => other

/-- Lines 299-314: the document handed to `xmlDocFormatDump`. -/
def store_doc (entities : String → List xmlNode) (config_doc : xmlDoc) (cpblts : nc_cpblts) :
    xmlDoc :=
  match config_doc.children with
  | root :: rest =>
    if xmlStrEqual root.name "netconf-client" then
      { children := store_root entities root cpblts :: rest }
    else config_doc
  | [] => config_doc

/-- Lines 295-298: the document `store_config` works on, a fresh one with the
root `netconf-client` when `config.xml` cannot be accessed or parsed; none when
the function returns before. -/
def store_source (entities : String → List xmlNode) : ConfigFile → Option xmlDoc
  | .unavailable => none
  | .absent => some { children := [xmlNewDocNode entities "netconf-client" none] }
  | .unparsable => some { children := [xmlNewDocNode entities "netconf-client" none] }
  | .parsed config_doc => some config_doc

/-- Function `store_config`: the document written to `config.xml`. The input
`written` is the outcome of line 315: `fopen(config_file, "w")` and
`xmlDocFormatDump` both succeed. Nothing is written when the function returns
before line 315 or when `written` is false. -/
def store_config (entities : String → List xmlNode) (file : ConfigFile) (cpblts : nc_cpblts)
    (written : Bool) : Option xmlDoc :=
  match store_source entities file with
  | none => none
  | some config_doc => if written then some (store_doc entities config_doc cpblts) else none

/-! ## Vocabulary of the specification -/

/-- The node carries the given element name. -/
def named (s : String) (n : xmlNode) : Bool := decide (n.name = s)

/-- The document has a first top-level node and it is named `netconf-client`. -/
def recognized_root (doc : xmlDoc) : Bool :=
  match doc.children with
  | root :: _ => named "netconf-client" root
  | [] => false

/-- The children of the first top-level node of the document. -/
def root_children (doc : xmlDoc) : List xmlNode :=
  match doc.children with
  | root :: _ => root.children
  | [] => []

/-- The children, in document order, of the nodes named `s` among `ns`. -/
def children_of (s : String) (ns : List xmlNode) : List xmlNode :=
  (ns.filter (named s)).flatMap xmlNode.children

/-- The children of the `authentication/pref` elements, in document order. -/
def pref_entries (ns : List xmlNode) : List xmlNode :=
  children_of "pref" (children_of "authentication" ns)

/-- The authentication method an element name stands for. -/
def auth_method (name : String) : Option NC_SSH_AUTH_TYPE :=
  if name = "publickey" then some .NC_SSH_AUTH_PUBLIC_KEYS
  else if name = "interactive" then some .NC_SSH_AUTH_INTERACTIVE
  else if name = "password" then some .NC_SSH_AUTH_PASSWORD
  else none

/-- The forwarding call a `pref` child stands for, if its name is a method. -/
def pref_call (n : xmlNode) : Option (NC_SSH_AUTH_TYPE × Int) :=
  (auth_method n.name).map (fun m => (m, atoi (xmlNodeGetContent n)))

/-- The key pair derived from a `key-path` element. -/
def key_pair (n : xmlNode) : String × String :=
  (xmlNodeGetContent n, xmlNodeGetContent n ++ ".pub")

/-- The `capability` element made for one capability string. -/
def capability_element (entities : String → List xmlNode) (cap : String) : xmlNode :=
  .element "capability" [] (xmlStringGetNodeList entities cap)

/-- The `capabilities` element made for a capability set: one `capability` element
per string, in iteration order. -/
def capabilities_element (entities : String → List xmlNode) (c : nc_cpblts) : xmlNode :=
  .element "capabilities" [] ((nc_cpblts_iter c).map (capability_element entities))

/-- The children of an element whose text content is exactly the given string: one
text node holding it, or nothing when the string is empty. -/
def verbatim_text (cap : String) : List xmlNode :=
  if cap = "" then [] else [.text cap]

/-- The `capabilities` sections of a document: the children of the root that are
named `capabilities`, with their contents. -/
def capabilities_sections (doc : xmlDoc) : List xmlNode :=
  (root_children doc).filter (named "capabilities")

/-- White space of the C locale: space, tab, line feed, vertical tab, form feed and
carriage return. -/
def white_space : List Char := " \t\n\x0b\x0c\r".toList

/-- The decimal digits, each at the position of its value. -/
def decimal_digits : List Char := "0123456789".toList

/-- The value of a decimal digit. -/
def digit_value (c : Char) : Nat := decimal_digits.indexOf c

/-- The number written by a list of decimal digits, most significant first. -/
def decimal_value (ds : List Char) : Nat :=
  Nat.ofDigits 10 (ds.reverse.map digit_value)

/-- The sign characters `+` and `-`. -/
def sign_chars : List Char := "+-".toList

/-- The text is a base-10 integer: an optional sign followed by decimal digits
and nothing else. -/
def is_base10_integer (s : String) : Bool :=
  match s.toList with
  | [] => false
  | c :: cs =>
    if c ∈ sign_chars then !cs.isEmpty && cs.all (fun d => decide (d ∈ decimal_digits))
    else (c :: cs).all (fun d => decide (d ∈ decimal_digits))

/-- The text begins with the integer `v`: optional white space, an optional sign,
a non-empty run of decimal digits that writes `v` up to its sign, and then the end
of the text or a character that is not a digit. -/
def begins_with_integer (s : String) (v : Int) : Prop :=
  ∃ ws sign ds rest : List Char,
    s.toList = ws ++ (sign ++ (ds ++ rest)) ∧
    (∀ c ∈ ws, c ∈ white_space) ∧
    (sign = [] ∨ sign = "+".toList ∨ sign = "-".toList) ∧
    ds ≠ [] ∧ (∀ c ∈ ds, c ∈ decimal_digits) ∧
    (∀ c, rest.head? = some c → c ∉ decimal_digits) ∧
    v = if sign = "-".toList then - (decimal_value ds : Int) else (decimal_value ds : Int)

/-- The text begins with no number: after optional white space it ends, or goes on
with a character that is neither white space nor a digit and, when that character
is a sign, no digit follows the sign. -/
def begins_with_no_number (s : String) : Prop :=
  ∃ ws rest : List Char,
    s.toList = ws ++ rest ∧
    (∀ c ∈ ws, c ∈ white_space) ∧
    (rest = [] ∨ ∃ c t, rest = c :: t ∧ c ∉ white_space ∧ c ∉ decimal_digits ∧
      (c ∈ sign_chars → ∀ d, t.head? = some d → d ∉ decimal_digits))

/-- The file read after a dump keeps what `load_config` reads of the capability
set: it parses to a document with the recognized root, and the children of the
last `capabilities` child of its root have, in order, the text contents of the
children of the last `capabilities` child of the root of the dumped document. -/
def reads_back_capabilities (dumped : xmlDoc) (reread : ConfigFile) : Prop :=
  ∃ doc e e1, reread = .parsed doc ∧ recognized_root doc = true ∧
    (capabilities_sections dumped).getLast? = some e ∧
    (capabilities_sections doc).getLast? = some e1 ∧
    e1.children.map xmlNodeGetContent = e.children.map xmlNodeGetContent

/-- The prior content of `config.xml` lets `store_config` write the capability
set: the file is absent or unparsable (a fresh document is made), or it parses to
a document with the recognized root. -/
def fresh_or_recognized : ConfigFile → Bool
  | .unavailable => false
  | .absent => true
  | .unparsable => true
  | .parsed doc => recognized_root doc

/-- The prior document, when it has the recognized root, has at most one
`capabilities` child of the root. -/
def at_most_one_capabilities : ConfigFile → Bool
  | .parsed doc => !recognized_root doc || decide ((capabilities_sections doc).length ≤ 1)
  | _ => true

/-! ## Example documents -/

/-- The document `<config/>`: a document whose root is not the recognized root. -/
def doc_other_root : xmlDoc :=
  { children := [.element "config" [] []] }

/-- A client document with a stale `capabilities` section and an `authentication`
section. -/
def doc_stale_capabilities : xmlDoc :=
  { children := [.element "netconf-client" []
      [.element "capabilities" [] [.element "capability" [] [.text "urn:old"]],
       .element "authentication" [] []]] }

/-- The document `<netconf-client><capabilities/></netconf-client>`. -/
def doc_empty_capabilities : xmlDoc :=
  { children := [.element "netconf-client" [] [.element "capabilities" [] []]] }

/-- A client document where `capabilities` occurs only below another element. -/
def doc_nested_capabilities : xmlDoc :=
  { children := [.element "netconf-client" []
      [.element "extension" []
        [.element "capabilities" [] [.element "capability" [] [.text "urn:a"]]]]] }

/-- A client document with two `capabilities` children around an unknown element. -/
def doc_two_capabilities : xmlDoc :=
  { children := [.element "netconf-client" []
      [.element "capabilities" [] [.element "capability" [] [.text "urn:old1"]],
       .element "extension" [] [.text "kept"],
       .element "capabilities" [] [.element "capability" [] [.text "urn:old2"]]]] }

/-- The `pref` example: `publickey` 2, `certificate` 3, `password` 1. -/
def doc_pref : xmlDoc :=
  { children := [.element "netconf-client" []
      [.element "authentication" []
        [.element "pref" []
          [.element "publickey" [] [.text "2"], .element "certificate" [] [.text "3"],
           .element "password" [] [.text "1"]]]]] }

/-- The entity parsing of a content string whose `&` has no `;` after it: libxml2
reports an unterminated entity reference and returns no node list. -/
def unterminated_entity (_ : String) : List xmlNode := []

/-- A capability of the NETCONF with-defaults kind, with two parameters joined by
an ampersand. -/
def with_defaults_capability : String :=
  "urn:ietf:params:netconf:capability:with-defaults:1.0?basic-mode=explicit&also-supported=report-all"

/-- A priority just above the range of `int`. -/
def doc_pref_out_of_range : xmlDoc :=
  { children := [.element "netconf-client" []
      [.element "authentication" []
        [.element "pref" [] [.element "publickey" [] [.text "2147483648"]]]]] }

/-- A priority padded with white space: line feed, two spaces, `2`, line feed. -/
def doc_pref_padded : xmlDoc :=
  { children := [.element "netconf-client" []
      [.element "authentication" []
        [.element "pref" [] [.element "password" [] [.text "\n  2\n"]]]]] }

/-- Priorities that are not base-10 integers: `7x`, the empty text and `high`. -/
def doc_lenient_pref : xmlDoc :=
  { children := [.element "netconf-client" []
      [.element "authentication" []
        [.element "pref" []
          [.element "password" [] [.text "7x"], .element "interactive" [] [],
           .element "publickey" [] [.text "high"]]]]] }

/-! ## The loops of `load_config` in closed form -/

theorem xmlStrEqual_name (n : xmlNode) (s : String) : xmlStrEqual n.name s = named s n := rfl

theorem mem_nc_cpblts_add (c : nc_cpblts) (s x : String) :
    x ∈ nc_cpblts_add c s ↔ x ∈ c ∨ x = s := by
  unfold nc_cpblts_add
  split
  · constructor
    · intro h; exact Or.inl h
    · rintro (h | h)
      · exact h
      · subst h; assumption
  · simp

theorem mem_load_capabilities (ns : List xmlNode) (c : nc_cpblts) (x : String) :
    x ∈ load_capabilities ns c ↔ x ∈ c ∨ x ∈ ns.map xmlNodeGetContent := by
  induction ns generalizing c with
  | nil => simp [load_capabilities]
  | cons n ns ih =>
    simp only [load_capabilities, ih, mem_nc_cpblts_add, List.map_cons, List.mem_cons]
    tauto

theorem load_capabilities_eq_nil (ns : List xmlNode) (c : nc_cpblts) :
    load_capabilities ns c = [] ↔ c = [] ∧ ns = [] := by
  constructor
  · intro h
    have hm : ∀ x, ¬ (x ∈ c ∨ x ∈ ns.map xmlNodeGetContent) := by
      intro x hx
      have := (mem_load_capabilities ns c x).mpr hx
      rw [h] at this
      exact List.not_mem_nil _ this
    constructor
    · cases c with
      | nil => rfl
      | cons a t => exact absurd (Or.inl (List.mem_cons_self a t)) (hm a)
    · cases ns with
      | nil => rfl
      | cons a t => exact absurd (Or.inr (by simp)) (hm (xmlNodeGetContent a))
  · rintro ⟨rfl, rfl⟩
    rfl

theorem load_capabilities_of_nodup (ns : List xmlNode) (c : nc_cpblts)
    (h : (c ++ ns.map xmlNodeGetContent).Nodup) :
    load_capabilities ns c = c ++ ns.map xmlNodeGetContent := by
  induction ns generalizing c with
  | nil => simp [load_capabilities]
  | cons n ns ih =>
    have ha : xmlNodeGetContent n ∉ c := by
      intro hc
      rw [List.nodup_append] at h
      exact h.2.2 hc (by simp)
    simp only [List.map_cons, load_capabilities, nc_cpblts_add, if_neg ha]
    rw [ih]
    · simp
    · simpa using h

theorem load_pref_eq (ns : List xmlNode) (s : Session) :
    load_pref ns s = { s with ssh_pref := s.ssh_pref ++ ns.filterMap pref_call } := by
  induction ns generalizing s with
  | nil => simp [load_pref]
  | cons n ns ih =>
    simp only [load_pref, ih, xmlStrEqual, nc_ssh_pref]
    by_cases h1 : n.name = "publickey"
    · have hp : pref_call n = some (.NC_SSH_AUTH_PUBLIC_KEYS, atoi (xmlNodeGetContent n)) := by
        simp [pref_call, auth_method, h1]
      simp [h1, List.filterMap_cons, hp]
    · by_cases h2 : n.name = "interactive"
      · have hp : pref_call n = some (.NC_SSH_AUTH_INTERACTIVE, atoi (xmlNodeGetContent n)) := by
          simp [pref_call, auth_method, h2]
        simp [h2, List.filterMap_cons, hp]
      · by_cases h3 : n.name = "password"
        · have hp : pref_call n = some (.NC_SSH_AUTH_PASSWORD, atoi (xmlNodeGetContent n)) := by
            simp [pref_call, auth_method, h3]
          simp [h3, List.filterMap_cons, hp]
        · have hp : pref_call n = none := by
            simp [pref_call, auth_method, h1, h2, h3]
          simp [h1, h2, h3, List.filterMap_cons, hp]

theorem load_keys_eq (ns : List xmlNode) (s : Session) :
    load_keys ns s =
      { s with keypair_path := s.keypair_path ++ (ns.filter (named "key-path")).map key_pair } := by
  induction ns generalizing s with
  | nil => simp [load_keys]
  | cons n ns ih =>
    simp only [load_keys, ih, xmlStrEqual_name, nc_set_keypair_path]
    by_cases h : named "key-path" n = true
    · simp [h, List.filter_cons, key_pair]
    · simp [h, List.filter_cons]

theorem load_authentication_eq (ns : List xmlNode) (s : Session) :
    load_authentication ns s =
      { s with
        ssh_pref := s.ssh_pref ++ (children_of "pref" ns).filterMap pref_call
        keypair_path := s.keypair_path ++
          ((children_of "keys" ns).filter (named "key-path")).map key_pair } := by
  induction ns generalizing s with
  | nil => simp [load_authentication, children_of]
  | cons n ns ih =>
    simp only [load_authentication, ih, xmlStrEqual_name, load_pref_eq, load_keys_eq, children_of]
    by_cases h1 : n.name = "pref"
    · have h2 : ¬ n.name = "keys" := by rw [h1]; decide
      have e1 : named "pref" n = true := by simp [named, h1]
      have e2 : named "keys" n = false := by simp [named, h2]
      simp [e1, e2, List.filter_cons, List.flatMap_cons]
    · have e1 : named "pref" n = false := by simp [named, h1]
      by_cases h2 : n.name = "keys"
      · have e2 : named "keys" n = true := by simp [named, h2]
        simp [e1, e2, List.filter_cons, List.flatMap_cons]
      · have e2 : named "keys" n = false := by simp [named, h2]
        simp [e1, e2, List.filter_cons]

theorem load_root_append (l1 l2 : List xmlNode) (s : Session) :
    load_root (l1 ++ l2) s = load_root l2 (load_root l1 s) := by
  induction l1 generalizing s with
  | nil => rfl
  | cons n l1 ih =>
    rw [List.cons_append]
    simp only [load_root]
    exact ih _

theorem load_root_cpblts (ns : List xmlNode) (s : Session) :
    (load_root ns s).cpblts =
      match (ns.filter (named "capabilities")).getLast? with
      | some e => load_capabilities e.children nc_cpblts_new
      | none => s.cpblts := by
  induction ns using List.reverseRecOn with
  | nil => simp [load_root]
  | append_singleton l a ih =>
    rw [load_root_append]
    simp only [load_root, xmlStrEqual_name, List.filter_append]
    by_cases h1 : named "capabilities" a = true
    · simp [h1, List.filter_cons]
    · by_cases h2 : named "authentication" a = true
      · simp [h1, h2, List.filter_cons, load_authentication_eq, ih]
      · simp [h1, h2, List.filter_cons, ih]

theorem load_root_ssh_pref (ns : List xmlNode) (s : Session) :
    (load_root ns s).ssh_pref = s.ssh_pref ++ (pref_entries ns).filterMap pref_call := by
  induction ns generalizing s with
  | nil => simp [load_root, pref_entries, children_of]
  | cons n ns ih =>
    simp only [load_root, ih, xmlStrEqual_name, pref_entries, children_of]
    by_cases h1 : n.name = "capabilities"
    · have h2 : ¬ n.name = "authentication" := by rw [h1]; decide
      have e1 : named "capabilities" n = true := by simp [named, h1]
      have e2 : named "authentication" n = false := by simp [named, h2]
      simp [e1, e2, List.filter_cons]
    · have e1 : named "capabilities" n = false := by simp [named, h1]
      by_cases h2 : n.name = "authentication"
      · have e2 : named "authentication" n = true := by simp [named, h2]
        simp [e1, e2, List.filter_cons, List.flatMap_cons, load_authentication_eq, children_of]
      · have e2 : named "authentication" n = false := by simp [named, h2]
        simp [e1, e2, List.filter_cons]

/-- The result of `load_config` on a parsed document, through `load_root`. -/
theorem load_config_parsed (defaults : nc_cpblts) (doc : xmlDoc) :
    load_config defaults (.parsed doc) =
      if recognized_root doc then
        load_root (root_children doc) { cpblts := defaults, ssh_pref := [], keypair_path := [] }
      else { cpblts := defaults, ssh_pref := [], keypair_path := [] } := by
  cases doc with
  | mk cs =>
    cases cs with
    | nil => simp [load_config, recognized_root]
    | cons r rest => simp [load_config, recognized_root, root_children, xmlStrEqual_name]

/-! ## `store_config` in closed form -/

theorem xmlStringGetNodeList_of_no_ampersand (entities : String → List xmlNode) (cap : String)
    (h : ampersand ∉ cap.toList) : xmlStringGetNodeList entities cap = verbatim_text cap := by
  unfold xmlStringGetNodeList verbatim_text
  rw [if_neg h]

theorem textOfList_verbatim_text (cap : String) : textOfList (verbatim_text cap) = cap := by
  unfold verbatim_text
  split
  · rename_i h
    simp [textOfList, h]
  · simp [textOfList, xmlNode.textOf]

theorem xmlNodeGetContent_capability_element (entities : String → List xmlNode) (cap : String)
    (h : ampersand ∉ cap.toList) :
    xmlNodeGetContent (capability_element entities cap) = cap := by
  simp only [capability_element, xmlNodeGetContent,
    xmlStringGetNodeList_of_no_ampersand entities cap h, textOfList_verbatim_text]

theorem map_content_capability_elements (entities : String → List xmlNode) (c : nc_cpblts)
    (h : ∀ cap ∈ c, ampersand ∉ cap.toList) :
    (c.map (capability_element entities)).map xmlNodeGetContent = c := by
  induction c with
  | nil => rfl
  | cons a c ih =>
    simp only [List.map_cons]
    rw [xmlNodeGetContent_capability_element entities a (h a (List.mem_cons_self a c)),
      ih (fun cap hc => h cap (List.mem_cons_of_mem a hc))]

theorem store_capabilities_eq (entities : String → List xmlNode) (caps : List String)
    (n : String) (a : List (String × String)) (cs : List xmlNode) :
    store_capabilities entities caps (.element n a cs) =
      .element n a (cs ++ caps.map (capability_element entities)) := by
  induction caps generalizing cs with
  | nil => simp [store_capabilities]
  | cons c caps ih =>
    simp only [store_capabilities, xmlNewChild, xmlAddChild, xmlNewDocNode, ih]
    simp [capability_element]

theorem unlink_capabilities_eq (cs : List xmlNode) :
    unlink_capabilities cs = cs.eraseP (named "capabilities") := by
  induction cs with
  | nil => rfl
  | cons c cs ih =>
    simp only [unlink_capabilities, xmlStrEqual_name, ih, List.eraseP_cons]
    by_cases h : named "capabilities" c = true <;> simp [h]

theorem store_root_element (entities : String → List xmlNode) (n : String)
    (a : List (String × String)) (cs : List xmlNode) (cpblts : nc_cpblts) :
    store_root entities (.element n a cs) cpblts =
      .element n a (cs.eraseP (named "capabilities") ++ [capabilities_element entities cpblts]) := by
  simp [store_root, xmlAddChild, xmlNewDocNode, store_capabilities_eq, unlink_capabilities_eq,
    capabilities_element]

theorem recognized_root_iff (doc : xmlDoc) :
    recognized_root doc = true ↔
      ∃ a cs rest, doc = { children := .element "netconf-client" a cs :: rest } := by
  constructor
  · intro h
    cases doc with
    | mk l =>
      cases l with
      | nil => simp [recognized_root] at h
      | cons r rest =>
        cases r with
        | element n a cs =>
          simp only [recognized_root, named, xmlNode.name, decide_eq_true_eq] at h
          subst h
          exact ⟨a, cs, rest, rfl⟩
        | text c =>
          simp only [recognized_root, named, xmlNode.name, decide_eq_true_eq] at h
          exact absurd h (by decide)
        | comment c =>
          simp only [recognized_root, named, xmlNode.name, decide_eq_true_eq] at h
          exact absurd h (by decide)
  · rintro ⟨a, cs, rest, rfl⟩
    simp [recognized_root, named, xmlNode.name]

theorem store_doc_recognized (entities : String → List xmlNode) (a : List (String × String))
    (cs rest : List xmlNode) (cpblts : nc_cpblts) :
    store_doc entities { children := .element "netconf-client" a cs :: rest } cpblts =
      { children := .element "netconf-client" a
          (cs.eraseP (named "capabilities") ++ [capabilities_element entities cpblts]) :: rest } := by
  simp [store_doc, xmlStrEqual, xmlNode.name, store_root_element]

theorem store_doc_not_recognized (entities : String → List xmlNode) (doc : xmlDoc)
    (cpblts : nc_cpblts) (h : recognized_root doc = false) :
    store_doc entities doc cpblts = doc := by
  cases doc with
  | mk l =>
    cases l with
    | nil => rfl
    | cons r rest =>
      simp only [recognized_root] at h
      simp [store_doc, xmlStrEqual_name, h]

theorem named_capabilities_element (entities : String → List xmlNode) (c : nc_cpblts) :
    named "capabilities" (capabilities_element entities c) = true := by
  simp [named, capabilities_element, xmlNode.name]

theorem store_config_written (entities : String → List xmlNode) (file : ConfigFile)
    (cpblts : nc_cpblts) :
    store_config entities file cpblts true =
      (store_source entities file).map (fun d => store_doc entities d cpblts) := by
  unfold store_config
  cases store_source entities file <;> simp

theorem store_config_not_written (entities : String → List xmlNode) (file : ConfigFile)
    (cpblts : nc_cpblts) : store_config entities file cpblts false = none := by
  unfold store_config
  cases store_source entities file <;> simp

/-! ## Auxiliary facts for the claims -/

theorem capabilities_sections_store_doc (entities : String → List xmlNode)
    (a : List (String × String)) (cs rest : List xmlNode) (c : nc_cpblts) :
    (capabilities_sections
        (store_doc entities { children := .element "netconf-client" a cs :: rest } c)).getLast? =
      some (capabilities_element entities c) := by
  rw [store_doc_recognized]
  simp only [capabilities_sections, root_children, xmlNode.children, List.filter_append]
  simp [List.filter_cons, named_capabilities_element]

theorem load_config_cpblts_of_last (defaults : nc_cpblts) (doc : xmlDoc) (e : xmlNode)
    (hr : recognized_root doc = true) (he : (capabilities_sections doc).getLast? = some e) :
    (load_config defaults (.parsed doc)).cpblts = load_capabilities e.children [] := by
  rw [load_config_parsed, if_pos hr, load_root_cpblts]
  simp only [capabilities_sections] at he
  rw [he]
  rfl

theorem eraseP_no_match_of_filter_le_one (p : xmlNode → Bool) (l : List xmlNode)
    (h : (l.filter p).length ≤ 1) : ∀ x ∈ l.eraseP p, p x = false := by
  induction l with
  | nil => simp
  | cons a l ih =>
    by_cases ha : p a = true
    · have hl : l.filter p = [] := by
        simp only [List.filter_cons, ha, if_true, List.length_cons] at h
        exact List.length_eq_zero.mp (by omega)
      intro x hx
      simp only [List.eraseP_cons, ha, cond_true] at hx
      by_contra hpx
      have : x ∈ l.filter p := List.mem_filter.mpr ⟨hx, by simpa using hpx⟩
      rw [hl] at this
      exact List.not_mem_nil _ this
    · have ha2 : p a = false := by simpa using ha
      simp only [List.filter_cons, ha2] at h
      intro x hx
      simp only [List.eraseP_cons, ha2, cond_false, List.mem_cons] at hx
      rcases hx with rfl | hx
      · exact ha2
      · exact ih (by simpa using h) x hx

theorem filter_append_singleton_of_no_match (p : xmlNode → Bool) (l : List xmlNode) (e : xmlNode)
    (h : ∀ x ∈ l, p x = false) (he : p e = true) : (l ++ [e]).filter p = [e] := by
  have : l.filter p = [] := by
    rw [List.filter_eq_nil_iff]
    intro x hx
    simp [h x hx]
  simp [List.filter_append, this, he]

theorem eraseP_append_singleton_of_no_match (p : xmlNode → Bool) (l : List xmlNode) (e : xmlNode)
    (h : ∀ x ∈ l, p x = false) (he : p e = true) : (l ++ [e]).eraseP p = l := by
  induction l with
  | nil => simp [List.eraseP_cons, he]
  | cons a l ih =>
    have ha : p a = false := h a (List.mem_cons_self a l)
    simp only [List.cons_append, List.eraseP_cons, ha, cond_false]
    rw [ih (fun x hx => h x (List.mem_cons_of_mem a hx))]

theorem filter_not_eraseP (p : xmlNode → Bool) (l : List xmlNode) :
    (l.eraseP p).filter (fun n => !p n) = l.filter (fun n => !p n) := by
  induction l with
  | nil => rfl
  | cons a l ih =>
    by_cases ha : p a = true
    · simp [List.eraseP_cons, List.filter_cons, ha]
    · have ha2 : p a = false := by simpa using ha
      simp [List.eraseP_cons, List.filter_cons, ha2, ih]

theorem char_eq_ofNat (c : Char) (n : Nat) (h : c.toNat = n) : c = Char.ofNat n := by
  rw [← h, Char.ofNat_toNat]

theorem isdigit_iff_mem_decimal_digits (c : Char) :
    isdigit c = true ↔ c ∈ decimal_digits := by
  constructor
  · intro h
    simp only [isdigit, Bool.and_eq_true, decide_eq_true_eq] at h
    obtain ⟨n, hn⟩ : ∃ n, c.toNat = n := ⟨_, rfl⟩
    have hc := char_eq_ofNat c n hn
    rw [hn] at h
    obtain ⟨h1, h2⟩ := h
    interval_cases n <;> subst hc <;> decide
  · intro h
    have hl : decimal_digits = [Char.ofNat 48, Char.ofNat 49, Char.ofNat 50, Char.ofNat 51,
        Char.ofNat 52, Char.ofNat 53, Char.ofNat 54, Char.ofNat 55, Char.ofNat 56,
        Char.ofNat 57] := by decide
    rw [hl] at h
    simp only [List.mem_cons, List.mem_singleton, List.not_mem_nil, or_false] at h
    rcases h with h | h | h | h | h | h | h | h | h | h <;> subst h <;> decide

theorem digit_value_eq (c : Char) (h : isdigit c = true) : c.toNat - 48 = digit_value c := by
  simp only [isdigit, Bool.and_eq_true, decide_eq_true_eq] at h
  obtain ⟨n, hn⟩ : ∃ n, c.toNat = n := ⟨_, rfl⟩
  have hc := char_eq_ofNat c n hn
  rw [hn] at h
  obtain ⟨h1, h2⟩ := h
  interval_cases n <;> subst hc <;> decide

theorem isspace_iff_mem_white_space (c : Char) :
    isspace c = true ↔ c ∈ white_space := by
  constructor
  · intro h
    simp only [isspace, Bool.or_eq_true, Bool.and_eq_true, decide_eq_true_eq] at h
    obtain ⟨n, hn⟩ : ∃ n, c.toNat = n := ⟨_, rfl⟩
    have hc := char_eq_ofNat c n hn
    rw [hn] at h
    rcases h with h | ⟨h1, h2⟩
    · subst h; subst hc; decide
    · interval_cases n <;> subst hc <;> decide
  · intro h
    have hl : white_space = [Char.ofNat 32, Char.ofNat 9, Char.ofNat 10, Char.ofNat 11,
        Char.ofNat 12, Char.ofNat 13] := by decide
    rw [hl] at h
    simp only [List.mem_cons, List.mem_singleton, List.not_mem_nil, or_false] at h
    rcases h with h | h | h | h | h | h <;> subst h <;> decide

theorem mem_sign_chars_iff (c : Char) : c ∈ sign_chars ↔ c.toNat = 43 ∨ c.toNat = 45 := by
  have hl : sign_chars = [Char.ofNat 43, Char.ofNat 45] := by decide
  rw [hl]
  simp only [List.mem_cons, List.mem_singleton, List.not_mem_nil, or_false]
  constructor
  · rintro (h | h) <;> subst h
    · exact Or.inl (by decide)
    · exact Or.inr (by decide)
  · rintro (h | h)
    · exact Or.inl (char_eq_ofNat c 43 h)
    · exact Or.inr (char_eq_ofNat c 45 h)

theorem isspace_eq_false_of_isdigit (c : Char) (h : isdigit c = true) : isspace c = false := by
  simp only [isdigit, Bool.and_eq_true, decide_eq_true_eq] at h
  simp only [isspace, Bool.or_eq_false_iff, decide_eq_false_iff_not, Bool.and_eq_false_iff]
  omega

theorem dropWhile_isspace_append (ws l : List Char) (hws : ∀ c ∈ ws, c ∈ white_space)
    (hl : ∀ c, l.head? = some c → isspace c = false) :
    (ws ++ l).dropWhile isspace = l := by
  induction ws with
  | nil =>
    cases l with
    | nil => rfl
    | cons c t => simp [List.dropWhile_cons, hl c rfl]
  | cons w ws ih =>
    have hw : isspace w = true :=
      (isspace_iff_mem_white_space w).mpr (hws w (List.mem_cons_self w ws))
    simp only [List.cons_append, List.dropWhile_cons, hw, if_true]
    exact ih (fun c hc => hws c (List.mem_cons_of_mem w hc))

theorem strtol_digits_append (ds rest : List Char) (hds : ∀ c ∈ ds, c ∈ decimal_digits)
    (hrest : ∀ c, rest.head? = some c → c ∉ decimal_digits) (acc : Nat) :
    strtol_digits (ds ++ rest) acc = acc * 10 ^ ds.length + decimal_value ds := by
  induction ds generalizing acc with
  | nil =>
    cases rest with
    | nil => simp [strtol_digits, decimal_value]
    | cons c t =>
      have hc : isdigit c = false := by
        by_contra hne
        exact hrest c rfl ((isdigit_iff_mem_decimal_digits c).mp (by simpa using hne))
      simp [strtol_digits, hc, decimal_value]
  | cons c cs ih =>
    have hc : isdigit c = true :=
      (isdigit_iff_mem_decimal_digits c).mpr (hds c (List.mem_cons_self c cs))
    have hcs : ∀ d ∈ cs, d ∈ decimal_digits := fun d hd => hds d (List.mem_cons_of_mem c hd)
    rw [List.cons_append]
    simp only [strtol_digits, hc, if_true]
    rw [ih hcs, digit_value_eq c hc]
    simp only [decimal_value, List.reverse_cons, List.map_append, List.map_cons, List.map_nil,
      Nat.ofDigits_append, Nat.ofDigits_singleton, List.length_map, List.length_reverse,
      List.length_cons]
    ring

theorem int_clamp_wrap (v : Int) (h1 : -(2 ^ 31 : Int) ≤ v) (h2 : v < 2 ^ 31) :
    ((if v < -(2 ^ 63 : Int) then -(2 ^ 63 : Int)
      else if (2 ^ 63 : Int) - 1 < v then (2 ^ 63 : Int) - 1 else v) + 2 ^ 31) % 2 ^ 32 - 2 ^ 31
      = v := by
  have e31 : (2 : Int) ^ 31 = 2147483648 := by norm_num
  have e32 : (2 : Int) ^ 32 = 4294967296 := by norm_num
  have e63 : (2 : Int) ^ 63 = 9223372036854775808 := by norm_num
  rw [e31] at h1 h2
  rw [e63, e31, e32]
  rw [if_neg (by omega), if_neg (by omega)]
  omega

theorem atoi_eq_of_strtol_signed (s : String) (v : Int)
    (hv : strtol_signed (s.toList.dropWhile isspace) = v)
    (h1 : -(2 ^ 31 : Int) ≤ v) (h2 : v < 2 ^ 31) : atoi s = v := by
  simp only [atoi, strtol, hv]
  exact int_clamp_wrap v h1 h2

theorem strtol_signed_digits (ds rest : List Char) (hne : ds ≠ [])
    (hds : ∀ c ∈ ds, c ∈ decimal_digits)
    (hrest : ∀ c, rest.head? = some c → c ∉ decimal_digits) :
    strtol_signed (ds ++ rest) = (decimal_value ds : Int) := by
  cases ds with
  | nil => exact absurd rfl hne
  | cons c cs =>
    have hc : isdigit c = true :=
      (isdigit_iff_mem_decimal_digits c).mpr (hds c (List.mem_cons_self c cs))
    have hb : 48 ≤ c.toNat ∧ c.toNat ≤ 57 := by
      simpa [isdigit] using hc
    have h45 : ¬ c.toNat = 45 := by omega
    have h43 : ¬ c.toNat = 43 := by omega
    simp only [List.cons_append, strtol_signed, h45, h43, if_false]
    have := strtol_digits_append (c :: cs) rest hds hrest 0
    simp only [List.cons_append] at this
    rw [this]
    simp

theorem atoi_of_begins_with_integer (s : String) (v : Int) (h : begins_with_integer s v)
    (h1 : -(2 ^ 31 : Int) ≤ v) (h2 : v < 2 ^ 31) : atoi s = v := by
  obtain ⟨ws, sign, ds, rest, hs, hws, hsign, hne, hds, hrest, hv⟩ := h
  apply atoi_eq_of_strtol_signed s v _ h1 h2
  obtain ⟨d, dt, hd⟩ : ∃ d dt, ds = d :: dt := by
    cases ds with
    | nil => exact absurd rfl hne
    | cons d dt => exact ⟨d, dt, rfl⟩
  have hdd : isdigit d = true :=
    (isdigit_iff_mem_decimal_digits d).mpr (hds d (by simp [hd]))
  rw [hs]
  rcases hsign with rfl | rfl | rfl
  · rw [dropWhile_isspace_append ws _ hws]
    · rw [List.nil_append, strtol_signed_digits ds rest hne hds hrest, hv]
      simp
    · intro c hc
      rw [hd] at hc
      simp only [List.nil_append, List.cons_append, List.head?_cons, Option.some.injEq] at hc
      subst hc
      exact isspace_eq_false_of_isdigit _ hdd
  · have e : "+".toList = [Char.ofNat 43] := by decide
    rw [e] at hv ⊢
    rw [dropWhile_isspace_append ws _ hws]
    · have hne2 : ¬ ([Char.ofNat 43] = "-".toList) := by decide
      rw [hv, if_neg hne2]
      simp only [List.cons_append, List.nil_append, strtol_signed]
      rw [if_neg (by decide), if_pos (by decide), strtol_digits_append ds rest hds hrest 0]
      simp
    · intro c hc
      simp only [List.cons_append, List.head?_cons, Option.some.injEq] at hc
      subst hc
      decide
  · have e : "-".toList = [Char.ofNat 45] := by decide
    rw [e] at hv ⊢
    rw [dropWhile_isspace_append ws _ hws]
    · rw [hv, if_pos rfl]
      simp only [List.cons_append, List.nil_append, strtol_signed]
      rw [if_pos (by decide), strtol_digits_append ds rest hds hrest 0]
      simp
    · intro c hc
      simp only [List.cons_append, List.head?_cons, Option.some.injEq] at hc
      subst hc
      decide

theorem strtol_digits_of_no_digit (l : List Char)
    (h : ∀ d, l.head? = some d → d ∉ decimal_digits) : strtol_digits l 0 = 0 := by
  have := strtol_digits_append [] l (by simp) h 0
  simpa [decimal_value] using this

theorem atoi_of_begins_with_no_number (s : String) (h : begins_with_no_number s) :
    atoi s = 0 := by
  obtain ⟨ws, rest, hs, hws, hrest⟩ := h
  apply atoi_eq_of_strtol_signed s 0 _ (by norm_num) (by norm_num)
  rw [hs]
  rcases hrest with rfl | ⟨c, t, rfl, hcw, hcd, hsign⟩
  · rw [dropWhile_isspace_append ws [] hws (by simp)]
    rfl
  · rw [dropWhile_isspace_append ws (c :: t) hws]
    · simp only [strtol_signed]
      by_cases hm : c.toNat = 45
      · rw [if_pos hm, strtol_digits_of_no_digit t
          (hsign ((mem_sign_chars_iff c).mpr (Or.inr hm)))]
        simp
      · rw [if_neg hm]
        by_cases hp : c.toNat = 43
        · rw [if_pos hp, strtol_digits_of_no_digit t
            (hsign ((mem_sign_chars_iff c).mpr (Or.inl hp)))]
          simp
        · rw [if_neg hp, strtol_digits_of_no_digit (c :: t)]
          · simp
          · intro d hd
            simp only [List.head?_cons, Option.some.injEq] at hd
            subst hd
            exact hcd
    · intro d hd
      simp only [List.head?_cons, Option.some.injEq] at hd
      subst hd
      by_contra hne
      exact hcw ((isspace_iff_mem_white_space _).mp (by simpa using hne))

theorem not_base10_integer_of_begins_with_no_number (s : String)
    (h : begins_with_no_number s) : is_base10_integer s = false := by
  obtain ⟨ws, rest, hs, hws, hrest⟩ := h
  unfold is_base10_integer
  rw [hs]
  cases ws with
  | cons w ws =>
    have hw : w ∈ white_space := hws w (List.mem_cons_self w ws)
    have hsp : isspace w = true := (isspace_iff_mem_white_space w).mpr hw
    have hb : w.toNat = 32 ∨ (9 ≤ w.toNat ∧ w.toNat ≤ 13) := by
      simpa [isspace] using hsp
    have hns : w ∉ sign_chars := by
      rw [mem_sign_chars_iff]
      omega
    have hnd : w ∉ decimal_digits := by
      intro hd
      have := isspace_eq_false_of_isdigit w ((isdigit_iff_mem_decimal_digits w).mpr hd)
      rw [hsp] at this
      cases this
    simp [hns, hnd]
  | nil =>
    rcases hrest with rfl | ⟨c, t, rfl, _, hcd, hsign⟩
    · rfl
    · by_cases hcs : c ∈ sign_chars
      · simp only [List.nil_append, hcs, if_true]
        cases t with
        | nil => rfl
        | cons d dt =>
          have := hsign hcs d rfl
          simp [this]
      · simp [hcs, hcd]
/-! ## Capability set: load -/

/-- C1 (as stated, refuted): with a parsed prior document whose root is not
`netconf-client`, `store_config` writes the document back without the capability
set, and loading it gives the defaults, not the stored set. And with no prior
document, a capability string with an ampersand and no semicolon is written as an
empty `capability` element, so loading gives the empty string instead of it. -/
theorem store_load_counterexample :
    (store_config unterminated_entity (.parsed doc_other_root) ["urn:a"] true =
        some doc_other_root ∧
      (load_config ["urn:d"] (.parsed doc_other_root)).cpblts = ["urn:d"] ∧
      ¬ (∀ x, x ∈ (load_config ["urn:d"] (.parsed doc_other_root)).cpblts ↔ x ∈ ["urn:a"])) ∧
    (store_config unterminated_entity .absent [with_defaults_capability] true =
        some { children := [.element "netconf-client" []
          [.element "capabilities" [] [.element "capability" [] []]]] } ∧
      (load_config ["urn:d"] (.parsed { children := [.element "netconf-client" []
          [.element "capabilities" [] [.element "capability" [] []]]] })).cpblts = [""] ∧
      with_defaults_capability ∉ [""]) := by
  refine ⟨⟨rfl, rfl, ?_⟩, rfl, rfl, by decide⟩
  intro h
  have := (h "urn:a").mpr (List.mem_singleton.mpr rfl)
  revert this
  decide

/-- C1 (amended): when the prior content of the config document is absent,
unparsable, or a parsed tree with the recognized root, no string of the capability
set has an ampersand, and the write at the end of `store_config` succeeds, a
document is written. When the file read afterwards has the recognized root and the
last `capabilities` child of its root has children with the text contents of the
written ones, as is the case when the file reads back as the tree that was dumped,
`load_config` yields a capability set with exactly the strings of the stored set
(the very same list when the stored set has no repeated string). -/
theorem store_load_round_trip (entities : String → List xmlNode) (defaults c : nc_cpblts)
    (file : ConfigFile)
    (h : fresh_or_recognized file = true)
    (hamp : ∀ cap ∈ c, ampersand ∉ cap.toList) :
    ∃ doc, store_config entities file c true = some doc ∧
      reads_back_capabilities doc (.parsed doc) ∧
      ∀ reread : ConfigFile, reads_back_capabilities doc reread →
        (∀ x, x ∈ (load_config defaults reread).cpblts ↔ x ∈ c) ∧
        (c.Nodup → (load_config defaults reread).cpblts = c) := by
  have key : ∀ (a : List (String × String)) (cs rest : List xmlNode),
      reads_back_capabilities
        (store_doc entities { children := .element "netconf-client" a cs :: rest } c)
        (.parsed (store_doc entities { children := .element "netconf-client" a cs :: rest } c)) ∧
      ∀ reread : ConfigFile,
        reads_back_capabilities
          (store_doc entities { children := .element "netconf-client" a cs :: rest } c) reread →
        (∀ x, x ∈ (load_config defaults reread).cpblts ↔ x ∈ c) ∧
        (c.Nodup → (load_config defaults reread).cpblts = c) := by
    intro a cs rest
    have hlast := capabilities_sections_store_doc entities a cs rest c
    have hrec : recognized_root
        (store_doc entities { children := .element "netconf-client" a cs :: rest } c) = true := by
      rw [store_doc_recognized]
      exact (recognized_root_iff _).mpr ⟨_, _, _, rfl⟩
    refine ⟨⟨_, _, _, rfl, hrec, hlast, hlast, rfl⟩, ?_⟩
    rintro reread ⟨doc, e, e1, rfl, hr, he, he1, hc⟩
    rw [hlast] at he
    cases he
    have hmap : e1.children.map xmlNodeGetContent = c := by
      rw [hc]
      exact map_content_capability_elements entities c hamp
    rw [load_config_cpblts_of_last defaults doc e1 hr he1]
    constructor
    · intro x
      rw [mem_load_capabilities, hmap]
      simp
    · intro hnd
      rw [load_capabilities_of_nodup e1.children [] (by rw [hmap]; simpa using hnd), hmap]
      simp
  cases file with
  | unavailable => simp [fresh_or_recognized] at h
  | absent => exact ⟨_, rfl, key [] [] []⟩
  | unparsable => exact ⟨_, rfl, key [] [] []⟩
  | parsed d =>
    obtain ⟨a, cs, rest, rfl⟩ := (recognized_root_iff d).mp h
    exact ⟨_, rfl, key a cs rest⟩

/-- Witness: an existing document with an `authentication` section and a stale
`capabilities` section. -/
theorem store_load_round_trip_witness :
    fresh_or_recognized (.parsed doc_stale_capabilities) = true ∧
    (∀ cap ∈ (["urn:a", "urn:b"] : nc_cpblts), ampersand ∉ cap.toList) ∧
    ∃ doc, store_config unterminated_entity (.parsed doc_stale_capabilities)
        ["urn:a", "urn:b"] true = some doc ∧
      reads_back_capabilities doc (.parsed doc) ∧
      ∀ reread : ConfigFile, reads_back_capabilities doc reread →
        (∀ x, x ∈ (load_config ["urn:d"] reread).cpblts ↔ x ∈ ["urn:a", "urn:b"]) ∧
        ((["urn:a", "urn:b"] : nc_cpblts).Nodup →
          (load_config ["urn:d"] reread).cpblts = ["urn:a", "urn:b"]) :=
  ⟨by decide, by decide,
    store_load_round_trip unterminated_entity ["urn:d"] ["urn:a", "urn:b"]
      (.parsed doc_stale_capabilities) (by decide) (by decide)⟩

/-- C3 (as stated, refuted): with a non-empty default set, a recognized root whose
`capabilities` child has no children leaves the capability set empty. -/
theorem load_config_empty_capabilities_counterexample :
    (["urn:d"] : nc_cpblts) ≠ [] ∧
      (load_config ["urn:d"] (.parsed doc_empty_capabilities)).cpblts = [] := by
  decide

/-- C3 (amended): with a non-empty default set, the capability set at the end of
`load_config` is empty exactly when the document is parsed, has the recognized
root, and the last `capabilities` child of the root has no children; in every other
case it is non-empty. -/
theorem load_config_cpblts_eq_nil_iff (defaults : nc_cpblts) (file : ConfigFile)
    (hd : defaults ≠ []) :
    (load_config defaults file).cpblts = [] ↔
      ∃ doc e, file = .parsed doc ∧ recognized_root doc = true ∧
        (capabilities_sections doc).getLast? = some e ∧ e.children = [] := by
  cases file with
  | unavailable => simp [load_config, hd]
  | absent => simp [load_config, hd]
  | unparsable => simp [load_config, hd]
  | parsed d =>
    rw [load_config_parsed]
    by_cases hr : recognized_root d = true
    · rw [if_pos hr, load_root_cpblts]
      cases hl : ((root_children d).filter (named "capabilities")).getLast? with
      | none =>
        simp only [capabilities_sections, hl]
        constructor
        · intro h; exact absurd h hd
        · rintro ⟨doc, e, hdoc, _, he, _⟩
          cases hdoc
          rw [hl] at he
          cases he
      | some e =>
        simp only [capabilities_sections]
        rw [load_capabilities_eq_nil]
        constructor
        · rintro ⟨_, hc⟩
          exact ⟨d, e, rfl, hr, hl, hc⟩
        · rintro ⟨doc, e2, hdoc, _, he, hc⟩
          cases hdoc
          rw [hl] at he
          cases he
          exact ⟨rfl, hc⟩
    · rw [if_neg hr]
      constructor
      · intro h; exact absurd h hd
      · rintro ⟨doc, e, hdoc, hr2, _, _⟩
        cases hdoc
        exact absurd hr2 hr

/-- Witness: the document with an empty
`capabilities` element empties the set, a document with another root does not. -/
theorem load_config_cpblts_eq_nil_iff_witness :
    ((load_config ["urn:d"] (.parsed doc_empty_capabilities)).cpblts = [] ↔
      ∃ doc e, ConfigFile.parsed doc_empty_capabilities = .parsed doc ∧
        recognized_root doc = true ∧
        (capabilities_sections doc).getLast? = some e ∧ e.children = []) ∧
    (load_config ["urn:d"] (.parsed doc_other_root)).cpblts ≠ [] :=
  ⟨load_config_cpblts_eq_nil_iff ["urn:d"] (.parsed doc_empty_capabilities) (by decide),
    by decide⟩

/-- C4: for a parsed document without a `capabilities` element as an immediate
child of the recognized root (another root, or `capabilities` only deeper in the
tree), the capability set after `load_config` is the default set. -/
theorem load_config_default_preservation (defaults : nc_cpblts) (doc : xmlDoc)
    (h : ¬ (recognized_root doc = true ∧
      ∃ c ∈ root_children doc, named "capabilities" c = true)) :
    (load_config defaults (.parsed doc)).cpblts = defaults := by
  rw [load_config_parsed]
  by_cases hr : recognized_root doc = true
  · rw [if_pos hr, load_root_cpblts]
    have hf : (root_children doc).filter (named "capabilities") = [] := by
      rw [List.filter_eq_nil_iff]
      intro c hc hn
      exact h ⟨hr, c, hc, hn⟩
    rw [hf]
    rfl
  · rw [if_neg hr]

/-- Witness: `capabilities` occurs only
below another child of the recognized root. -/
theorem load_config_default_preservation_witness :
    ¬ (recognized_root doc_nested_capabilities = true ∧
      ∃ c ∈ root_children doc_nested_capabilities, named "capabilities" c = true) ∧
    (load_config ["urn:d"] (.parsed doc_nested_capabilities)).cpblts = ["urn:d"] :=
  ⟨by decide, load_config_default_preservation ["urn:d"] doc_nested_capabilities (by decide)⟩

/-! ## Capability set: store -/

/-- C5 (as stated, refuted): with two `capabilities` children before the call, the
written root still has the second of them, in front of the new one, so it has two
`capabilities` children. And a capability string with an ampersand and no
semicolon is written as a `capability` element without text content. -/
theorem store_config_serialization_counterexample :
    (recognized_root doc_two_capabilities = true ∧
      (store_config unterminated_entity (.parsed doc_two_capabilities) ["urn:x"] true).map
          capabilities_sections =
        some [.element "capabilities" [] [.element "capability" [] [.text "urn:old2"]],
              .element "capabilities" [] [.element "capability" [] [.text "urn:x"]]] ∧
      ((store_config unterminated_entity (.parsed doc_two_capabilities) ["urn:x"] true).map
        (fun d => (capabilities_sections d).length)) = some 2) ∧
    (recognized_root doc_empty_capabilities = true ∧
      (store_config unterminated_entity (.parsed doc_empty_capabilities)
          [with_defaults_capability] true).map root_children =
        some [.element "capabilities" [] [.element "capability" [] []]] ∧
      xmlNodeGetContent (.element "capability" [] []) ≠ with_defaults_capability) := by
  refine ⟨⟨by decide, rfl, by decide⟩, by decide, rfl, by decide⟩

/-- C5 (amended): for every document with the recognized root, when the write at
the end of `store_config` succeeds, the document that is dumped to the file has a
new `capabilities` element appended as the last child of the root, whose children
are one `capability` element per string of the set, in iteration order; a string
without an ampersand is the text content of its element, stored as it is; when the
root had at most one `capabilities` child before the call, the new element is the
only `capabilities` child of the root of the dumped document. -/
theorem store_config_serialization (entities : String → List xmlNode) (doc : xmlDoc)
    (c : nc_cpblts) (h : recognized_root doc = true) :
    ∃ out, store_config entities (.parsed doc) c true = some out ∧
      recognized_root out = true ∧
      (root_children out).getLast? = some (.element "capabilities" []
        ((nc_cpblts_iter c).map (capability_element entities))) ∧
      (∀ cap, (capability_element entities cap).name = "capability") ∧
      (∀ cap, ampersand ∉ cap.toList →
        capability_element entities cap = .element "capability" [] (verbatim_text cap) ∧
        xmlNodeGetContent (capability_element entities cap) = cap) ∧
      ((capabilities_sections doc).length ≤ 1 →
        capabilities_sections out = [.element "capabilities" []
          ((nc_cpblts_iter c).map (capability_element entities))]) := by
  obtain ⟨a, cs, rest, rfl⟩ := (recognized_root_iff doc).mp h
  refine ⟨_, rfl, ?_, ?_, ?_, ?_, ?_⟩
  · rw [store_doc_recognized]
    exact (recognized_root_iff _).mpr ⟨_, _, _, rfl⟩
  · rw [store_doc_recognized]
    simp [root_children, xmlNode.children, capabilities_element]
  · intro cap
    rfl
  · intro cap hcap
    refine ⟨?_, xmlNodeGetContent_capability_element entities cap hcap⟩
    simp only [capability_element, xmlStringGetNodeList_of_no_ampersand entities cap hcap]
  · intro hle
    rw [store_doc_recognized]
    simp only [capabilities_sections, root_children, xmlNode.children] at hle ⊢
    exact filter_append_singleton_of_no_match _ _ _
      (eraseP_no_match_of_filter_le_one _ cs hle) (named_capabilities_element entities c)

/-- Witness: the stale `capabilities` section is replaced by the new one, which
becomes the last child. -/
theorem store_config_serialization_witness :
    recognized_root doc_stale_capabilities = true ∧
    (∃ out, store_config unterminated_entity (.parsed doc_stale_capabilities)
        ["urn:a", "urn:b"] true = some out ∧
      recognized_root out = true ∧
      (root_children out).getLast? = some (.element "capabilities" []
        ((nc_cpblts_iter ["urn:a", "urn:b"]).map (capability_element unterminated_entity))) ∧
      (∀ cap, (capability_element unterminated_entity cap).name = "capability") ∧
      (∀ cap, ampersand ∉ cap.toList →
        capability_element unterminated_entity cap =
          .element "capability" [] (verbatim_text cap) ∧
        xmlNodeGetContent (capability_element unterminated_entity cap) = cap) ∧
      ((capabilities_sections doc_stale_capabilities).length ≤ 1 →
        capabilities_sections out = [.element "capabilities" []
          ((nc_cpblts_iter ["urn:a", "urn:b"]).map
            (capability_element unterminated_entity))])) ∧
    store_config unterminated_entity (.parsed doc_stale_capabilities) ["urn:a", "urn:b"] true =
      some { children := [.element "netconf-client" []
        [.element "authentication" [] [],
         .element "capabilities" []
          [.element "capability" [] [.text "urn:a"],
           .element "capability" [] [.text "urn:b"]]]] } :=
  ⟨by decide,
    store_config_serialization unterminated_entity doc_stale_capabilities ["urn:a", "urn:b"]
      (by decide), rfl⟩

/-- C6 (as stated, refuted): with two `capabilities` children in the prior
document, the first call leaves the second old section in front of the new one
and the second call, which reads the written document back, replaces it, so the two
outputs differ in their `capabilities` sections. -/
theorem store_config_twice_counterexample :
    (store_config unterminated_entity (.parsed doc_two_capabilities) ["urn:x"] true).map
        capabilities_sections =
        some [.element "capabilities" [] [.element "capability" [] [.text "urn:old2"]],
              .element "capabilities" [] [.element "capability" [] [.text "urn:x"]]] ∧
      ((store_config unterminated_entity (.parsed doc_two_capabilities) ["urn:x"] true).bind
          (fun d1 => store_config unterminated_entity (.parsed d1) ["urn:x"] true)).map
        capabilities_sections =
        some [.element "capabilities" [] [.element "capability" [] [.text "urn:x"]],
              .element "capabilities" [] [.element "capability" [] [.text "urn:x"]]] ∧
      ((store_config unterminated_entity (.parsed doc_two_capabilities) ["urn:x"] true).map
          (fun d => (capabilities_sections d).map xmlNodeGetContent)) ≠
        (((store_config unterminated_entity (.parsed doc_two_capabilities) ["urn:x"] true).bind
          (fun d1 => store_config unterminated_entity (.parsed d1) ["urn:x"] true)).map
          (fun d => (capabilities_sections d).map xmlNodeGetContent)) := by
  refine ⟨rfl, rfl, by decide⟩

/-- C6 (amended): when the prior document is absent, unparsable, or parsed with at
most one `capabilities` child of the recognized root, the first `store_config`
writes a document, the second call reads back the tree that was dumped, and its
write succeeds too, the second call writes the same document again; in particular
the `capabilities` sections of the two outputs are identical. -/
theorem store_config_idempotent (entities : String → List xmlNode) (c : nc_cpblts)
    (file : ConfigFile) (d1 : xmlDoc) (reread : ConfigFile)
    (h : at_most_one_capabilities file = true)
    (h1 : store_config entities file c true = some d1)
    (hread : reread = .parsed d1) :
    ∃ d2, store_config entities reread c true = some d2 ∧ d2 = d1 ∧
      capabilities_sections d2 = capabilities_sections d1 := by
  have key : ∀ (a : List (String × String)) (cs rest : List xmlNode),
      (cs.filter (named "capabilities")).length ≤ 1 →
      store_doc entities
          (store_doc entities { children := .element "netconf-client" a cs :: rest } c) c =
        store_doc entities { children := .element "netconf-client" a cs :: rest } c := by
    intro a cs rest hle
    rw [store_doc_recognized, store_doc_recognized]
    rw [eraseP_append_singleton_of_no_match _ _ _
      (eraseP_no_match_of_filter_le_one _ cs hle) (named_capabilities_element entities c)]
  have hd : store_doc entities d1 c = d1 := by
    cases file with
    | unavailable => simp [store_config, store_source] at h1
    | absent =>
      simp only [store_config, store_source, xmlNewDocNode, if_true, Option.some.injEq] at h1
      rw [← h1]
      exact key [] [] [] (by simp)
    | unparsable =>
      simp only [store_config, store_source, xmlNewDocNode, if_true, Option.some.injEq] at h1
      rw [← h1]
      exact key [] [] [] (by simp)
    | parsed d =>
      simp only [store_config, store_source, if_true, Option.some.injEq] at h1
      rw [← h1]
      by_cases hr : recognized_root d = true
      · obtain ⟨a, cs, rest, rfl⟩ := (recognized_root_iff d).mp hr
        simp only [at_most_one_capabilities, hr, Bool.not_true, Bool.false_or,
          decide_eq_true_eq, capabilities_sections, root_children, xmlNode.children] at h
        exact key a cs rest h
      · have hr2 : recognized_root d = false := by simpa using hr
        rw [store_doc_not_recognized entities d c hr2, store_doc_not_recognized entities d c hr2]
  subst hread
  exact ⟨d1, by simp [store_config, store_source, hd], rfl, rfl⟩

/-- Witness: a first store over a document with one stale `capabilities` section,
then a second store over the document it wrote. -/
theorem store_config_idempotent_witness :
    at_most_one_capabilities (.parsed doc_stale_capabilities) = true ∧
    store_config unterminated_entity (.parsed doc_stale_capabilities) ["urn:a"] true =
      some (store_doc unterminated_entity doc_stale_capabilities ["urn:a"]) ∧
    ∃ d2, store_config unterminated_entity
          (.parsed (store_doc unterminated_entity doc_stale_capabilities ["urn:a"]))
          ["urn:a"] true = some d2 ∧
      d2 = store_doc unterminated_entity doc_stale_capabilities ["urn:a"] ∧
      capabilities_sections d2 =
        capabilities_sections (store_doc unterminated_entity doc_stale_capabilities ["urn:a"]) :=
  ⟨by decide, rfl,
    store_config_idempotent unterminated_entity ["urn:a"] (.parsed doc_stale_capabilities)
      (store_doc unterminated_entity doc_stale_capabilities ["urn:a"])
      (.parsed (store_doc unterminated_entity doc_stale_capabilities ["urn:a"]))
      (by decide) rfl rfl⟩

/-- C9: for every existing document with the recognized root, the children of the
root that are not `capabilities` elements are in the written document unchanged
and in the same order; the root keeps its name and attributes and the other
top-level nodes stay as they were. The written document is the one of a write that
succeeds; when the write fails no document is written. -/
theorem store_config_preserves_other_children (entities : String → List xmlNode)
    (doc : xmlDoc) (c : nc_cpblts) (h : recognized_root doc = true) :
    (∃ out, store_config entities (.parsed doc) c true = some out ∧
      (root_children out).filter (fun n => !named "capabilities" n) =
        (root_children doc).filter (fun n => !named "capabilities" n) ∧
      recognized_root out = true ∧
      out.children.tail = doc.children.tail) ∧
    store_config entities (.parsed doc) c false = none := by
  obtain ⟨a, cs, rest, rfl⟩ := (recognized_root_iff doc).mp h
  refine ⟨⟨_, rfl, ?_, ?_, ?_⟩, rfl⟩
  · rw [store_doc_recognized]
    simp only [root_children, xmlNode.children, List.filter_append, filter_not_eraseP]
    simp [List.filter_cons, named_capabilities_element]
  · rw [store_doc_recognized]
    exact (recognized_root_iff _).mpr ⟨_, _, _, rfl⟩
  · rw [store_doc_recognized]
    rfl

/-- Witness: the unknown `extension` element between two `capabilities` sections
survives the store. -/
theorem store_config_preserves_other_children_witness :
    ((∃ out, store_config unterminated_entity (.parsed doc_two_capabilities) ["urn:x"] true =
        some out ∧
      (root_children out).filter (fun n => !named "capabilities" n) =
        (root_children doc_two_capabilities).filter (fun n => !named "capabilities" n) ∧
      recognized_root out = true ∧
      out.children.tail = doc_two_capabilities.children.tail) ∧
    store_config unterminated_entity (.parsed doc_two_capabilities) ["urn:x"] false = none) ∧
    (root_children doc_two_capabilities).filter (fun n => !named "capabilities" n) =
      [.element "extension" [] [.text "kept"]] :=
  ⟨store_config_preserves_other_children unterminated_entity doc_two_capabilities ["urn:x"]
    (by decide), rfl⟩

/-! ## Authentication preferences and key pair -/

/-- C7 (as stated, refuted): the text `2147483648` is a base-10 integer that writes
2147483648, and the call made for it carries the priority -2147483648. -/
theorem load_config_ssh_pref_counterexample :
    is_base10_integer "2147483648" = true ∧
      begins_with_integer "2147483648" 2147483648 ∧
      (load_config ["urn:d"] (.parsed doc_pref_out_of_range)).ssh_pref =
        [(.NC_SSH_AUTH_PUBLIC_KEYS, -2147483648)] := by
  refine ⟨by decide, ⟨[], [], "2147483648".toList, [], rfl, by simp, Or.inl rfl, by decide,
    by decide, by simp, by decide⟩, by decide⟩

/-- C7 (amended): the calls to `nc_ssh_pref` made by `load_config` are, in document
order, one call for each child of each `authentication/pref` element of the
recognized root whose name is `publickey`, `interactive` or `password`, with the
priority `atoi` reads from its text; a child with another name gives no call, and
without a document with the recognized root no call is made. The priority is the
integer the text begins with (after optional white space: an optional sign and
decimal digits, up to the first character that is not a digit) whenever that
integer is in the range of `int`, and 0 when the text begins with no number. The
example `publickey` 2, `certificate` 3, `password` 1 gives (public-key, 2),
(password, 1). -/
theorem load_config_ssh_pref (defaults : nc_cpblts) (file : ConfigFile) :
    (load_config defaults file).ssh_pref =
        (match file with
          | .parsed doc =>
            if recognized_root doc then (pref_entries (root_children doc)).filterMap pref_call
            else []
          | _ => []) ∧
      (∀ n : xmlNode, pref_call n =
        if n.name = "publickey" then
          some (.NC_SSH_AUTH_PUBLIC_KEYS, atoi (xmlNodeGetContent n))
        else if n.name = "interactive" then
          some (.NC_SSH_AUTH_INTERACTIVE, atoi (xmlNodeGetContent n))
        else if n.name = "password" then
          some (.NC_SSH_AUTH_PASSWORD, atoi (xmlNodeGetContent n))
        else none) ∧
      (∀ (s : String) (v : Int), begins_with_integer s v → -(2 ^ 31 : Int) ≤ v → v < 2 ^ 31 →
        atoi s = v) ∧
      (∀ s : String, begins_with_no_number s → atoi s = 0) ∧
      (load_config defaults (.parsed doc_pref)).ssh_pref =
        [(.NC_SSH_AUTH_PUBLIC_KEYS, 2), (.NC_SSH_AUTH_PASSWORD, 1)] ∧
      (load_config defaults (.parsed doc_pref_padded)).ssh_pref =
        [(.NC_SSH_AUTH_PASSWORD, 2)] := by
  refine ⟨?_, ?_, atoi_of_begins_with_integer, atoi_of_begins_with_no_number, rfl, rfl⟩
  · cases file with
    | unavailable => rfl
    | absent => rfl
    | unparsable => rfl
    | parsed d =>
      rw [load_config_parsed]
      by_cases hr : recognized_root d = true
      · simp [hr, load_root_ssh_pref]
      · simp [hr]
  · intro n
    simp only [pref_call, auth_method]
    split_ifs <;> rfl

/-- C10 (as stated, refuted): the text `7x` is not a base-10 integer, and the call
for it is made with priority 7, not 0. -/
theorem load_config_lenient_priority_counterexample :
    is_base10_integer "7x" = false ∧
      (load_config ["urn:d"] (.parsed doc_lenient_pref)).ssh_pref =
        [(.NC_SSH_AUTH_PASSWORD, 7), (.NC_SSH_AUTH_INTERACTIVE, 0),
         (.NC_SSH_AUTH_PUBLIC_KEYS, 0)] := by
  refine ⟨by decide, by decide⟩

/-- C10 (amended): for every `pref` child with a recognized method name the
forwarding call is made whatever its text. Its priority is 0 whenever the text
begins with no number (after optional white space it ends, or goes on with
something that is not an optionally signed digit), and such a text is never a
base-10 integer. When the text begins with an integer in the range of `int` and
goes on with other characters, the priority is that integer. -/
theorem load_config_lenient_priority (defaults : nc_cpblts) (doc : xmlDoc) (n : xmlNode)
    (m : NC_SSH_AUTH_TYPE)
    (hroot : recognized_root doc = true)
    (hn : n ∈ pref_entries (root_children doc))
    (hm : auth_method n.name = some m) :
    (∃ p, (m, p) ∈ (load_config defaults (.parsed doc)).ssh_pref) ∧
      (begins_with_no_number (xmlNodeGetContent n) →
        is_base10_integer (xmlNodeGetContent n) = false ∧
        (m, (0 : Int)) ∈ (load_config defaults (.parsed doc)).ssh_pref) ∧
      (∀ v : Int, begins_with_integer (xmlNodeGetContent n) v →
        -(2 ^ 31 : Int) ≤ v → v < 2 ^ 31 →
        (m, v) ∈ (load_config defaults (.parsed doc)).ssh_pref) := by
  have hcall : (m, atoi (xmlNodeGetContent n)) ∈
      (load_config defaults (.parsed doc)).ssh_pref := by
    rw [load_config_parsed, if_pos hroot, load_root_ssh_pref]
    simp only [List.nil_append, List.mem_filterMap]
    exact ⟨n, hn, by simp [pref_call, hm]⟩
  refine ⟨⟨_, hcall⟩, ?_, ?_⟩
  · intro h0
    refine ⟨not_base10_integer_of_begins_with_no_number _ h0, ?_⟩
    rw [← atoi_of_begins_with_no_number _ h0]
    exact hcall
  · intro v hv h1 h2
    rw [← atoi_of_begins_with_integer _ v hv h1 h2]
    exact hcall

/-- Witness: in the document with the texts `7x`, empty and `high`, the `publickey`
entry `high` begins with no number and is forwarded with priority 0, and the
`password` entry `7x` begins with the integer 7 and is forwarded with priority 7. -/
theorem load_config_lenient_priority_witness :
    begins_with_no_number "high" ∧
      (NC_SSH_AUTH_TYPE.NC_SSH_AUTH_PUBLIC_KEYS, (0 : Int)) ∈
        (load_config ["urn:d"] (.parsed doc_lenient_pref)).ssh_pref ∧
      begins_with_integer "7x" 7 ∧
      (NC_SSH_AUTH_TYPE.NC_SSH_AUTH_PASSWORD, (7 : Int)) ∈
        (load_config ["urn:d"] (.parsed doc_lenient_pref)).ssh_pref := by
  have hhigh : begins_with_no_number "high" :=
    ⟨[], "high".toList, rfl, by simp,
      Or.inr ⟨"h".get 0, "igh".toList, rfl, by decide, by decide,
        fun h => absurd h (by decide)⟩⟩
  have h7 : begins_with_integer "7x" 7 :=
    ⟨[], [], "7".toList, "x".toList, rfl, by simp, Or.inl rfl, by decide, by decide,
      by
        intro c hc
        have : c = "x".get 0 := by
          simpa using hc.symm
        subst this
        decide,
      by decide⟩
  refine ⟨hhigh, ?_, h7, ?_⟩
  · exact ((load_config_lenient_priority ["urn:d"] doc_lenient_pref
      (.element "publickey" [] [.text "high"]) .NC_SSH_AUTH_PUBLIC_KEYS
      (by decide) (by simp [doc_lenient_pref, pref_entries, children_of, root_children, named,
        xmlNode.name, xmlNode.children]) (by decide)).2.1 hhigh).2
  · exact (load_config_lenient_priority ["urn:d"] doc_lenient_pref
      (.element "password" [] [.text "7x"]) .NC_SSH_AUTH_PASSWORD
      (by decide) (by simp [doc_lenient_pref, pref_entries, children_of, root_children, named,
        xmlNode.name, xmlNode.children]) (by decide)).2.2 7 h7 (by norm_num) (by norm_num)

end NetconfClient
